import Mathlib

/-!
Verification of the OutrunMusicRider core: a shallow embedding of the audio
analyzer (`analyzeBuffer`), the track generator (`generateTrack` and its
helpers), and the game's lane logic (`handleInput`, `applyLaneChange`,
`maybeAutoDodge`), together with theorems settling the specification claims.

Numeric conventions: the analyzer and generator are embedded over `ℝ`
(the source uses `Math.sqrt`/`Math.sin`); the lane logic, which uses only
field arithmetic and comparisons, is embedded over `ℚ` so that it stays
executable.  JavaScript `Math.floor`/`Math.round` become `Int.floor` and
`round` (both round half toward positive infinity, matching `Math.round`).
-/

set_option linter.unusedVariables false

/-- 3D vector over `ℝ` (embedding of `THREE.Vector3`). -/
structure Vec3 where
  x : ℝ
  y : ℝ
  z : ℝ

def vecAdd (a b : Vec3) : Vec3 := ⟨a.x + b.x, a.y + b.y, a.z + b.z⟩

def vecSub (a b : Vec3) : Vec3 := ⟨a.x - b.x, a.y - b.y, a.z - b.z⟩

def vecSmul (c : ℝ) (v : Vec3) : Vec3 := ⟨c * v.x, c * v.y, c * v.z⟩

/-- `THREE.Vector3.cross`. -/
def vecCross (a b : Vec3) : Vec3 :=
  ⟨a.y * b.z - a.z * b.y, a.z * b.x - a.x * b.z, a.x * b.y - a.y * b.x⟩

/-- `THREE.Vector3.length`: `sqrt(x*x + y*y + z*z)`. -/
noncomputable def vecLength (v : Vec3) : ℝ :=
  Real.sqrt (v.x * v.x + v.y * v.y + v.z * v.z)

/-- `THREE.Vector3.normalize`: `divideScalar(length() || 1)`, i.e. a zero
vector is left unchanged, otherwise every component is divided by the length. -/
noncomputable def vecNormalize (v : Vec3) : Vec3 :=
  if vecLength v = 0 then v else vecSmul (1 / vecLength v) v

/-- `BeatMarker` from `AudioAnalysis`: `{time, strength}`. -/
structure BeatMarker where
  time : ℝ
  strength : ℝ

/-- `EnergySample` from `AudioAnalysis`: `{time, rms}`. -/
structure EnergySample where
  time : ℝ
  rms : ℝ

/-- `MusicMap` from `AudioAnalysis` (the five-field version with treble data). -/
structure MusicMap where
  duration : ℝ
  beats : List BeatMarker
  energySamples : List EnergySample
  trebleSamples : List EnergySample
  treblePeaks : List BeatMarker

/-- A decoded audio buffer: first-channel samples plus the sample rate.
The Web Audio `AudioBuffer.duration` getter is `length / sampleRate`
(see `bufferDuration`).  The sample rate is kept in `ℚ` so that the
window size `Math.floor(sampleRate * 0.075)` stays computable. -/
structure AudioDataBuffer where
  channelData : List ℝ
  sampleRate : ℚ

/-- `AudioBuffer.duration = length / sampleRate`. -/
noncomputable def bufferDuration (b : AudioDataBuffer) : ℝ :=
  (b.channelData.length : ℝ) / ((b.sampleRate : ℝ))

/-- `hopSize = Math.floor(sampleRate * 0.075)` (75 ms windows). -/
def hopSize (b : AudioDataBuffer) : ℕ :=
  (⌊b.sampleRate * (0.075 : ℚ)⌋).toNat

/-- The chunk boundaries `(startSample, endSample)` produced by the loop
`while (currentSample < length) { end = min(current + hop, length); ... }`.
The `0 < hop` conjunct only guards termination: the source loop does not
terminate when `hop = 0`, which real sample rates (≥ 8000 Hz) never produce. -/
def chunkBoundsAux (n hop cur : ℕ) : List (ℕ × ℕ) :=
  if h : cur < n ∧ 0 < hop then
    (cur, min (cur + hop) n) :: chunkBoundsAux n hop (min (cur + hop) n)
  else []
termination_by n - cur
decreasing_by
  omega

def chunkBounds (n hop : ℕ) : List (ℕ × ℕ) := chunkBoundsAux n hop 0

/-- RMS of one chunk: `sqrt(sumSquares / chunk.length)` over
`channelData.slice(start, end)`. -/
noncomputable def chunkRms (data : List ℝ) (lo hi : ℕ) : ℝ :=
  let chunk := (data.drop lo).take (hi - lo)
  Real.sqrt ((chunk.map (fun v => v * v)).sum / (chunk.length : ℝ))

/-- Derivative-based treble RMS of one chunk:
`sqrt(trebleSumSquares / max(1, chunk.length - 1))` where
`trebleSumSquares` sums the squared first differences inside the chunk. -/
noncomputable def chunkTrebleRms (data : List ℝ) (lo hi : ℕ) : ℝ :=
  let chunk := (data.drop lo).take (hi - lo)
  let diffs := List.zipWith (fun a b => a - b) chunk.tail chunk
  Real.sqrt ((diffs.map (fun v => v * v)).sum / ((max 1 (chunk.length - 1) : ℕ) : ℝ))

noncomputable def rmsValues (b : AudioDataBuffer) : List ℝ :=
  (chunkBounds b.channelData.length (hopSize b)).map
    (fun p => chunkRms b.channelData p.1 p.2)

noncomputable def trebleRmsValues (b : AudioDataBuffer) : List ℝ :=
  (chunkBounds b.channelData.length (hopSize b)).map
    (fun p => chunkTrebleRms b.channelData p.1 p.2)

/-- Window start times: `time = startSample / sampleRate`. -/
noncomputable def windowTimes (b : AudioDataBuffer) : List ℝ :=
  (chunkBounds b.channelData.length (hopSize b)).map
    (fun p => ((p.1 : ℝ)) / ((b.sampleRate : ℝ)))

/-- `calculateRMSThreshold`: 0 for an empty series, otherwise
`mean + 0.5 * stdDev` (variance over the full series). -/
noncomputable def calculateRMSThreshold (vals : List ℝ) : ℝ :=
  if vals = [] then 0
  else
    let mean := vals.sum / (vals.length : ℝ)
    let variance := (vals.map (fun val => (val - mean) ^ 2)).sum / (vals.length : ℝ)
    let stdDev := Real.sqrt variance
    mean + 0.5 * stdDev

/-- The detection loop `for (i = 1; i < vals.length - 1; i++)`: index `i` emits
a marker `{time: times[i], strength: vals[i]}` iff
`vals[i-1] < vals[i] > vals[i+1]` and `vals[i] > calculateRMSThreshold(vals)`. -/
noncomputable def detectEvents (vals times : List ℝ) : List BeatMarker :=
  (List.range' 1 (vals.length - 2)).filterMap (fun i =>
    if vals.getD (i - 1) 0 < vals.getD i 0 ∧ vals.getD (i + 1) 0 < vals.getD i 0 ∧
        calculateRMSThreshold vals < vals.getD i 0
    then some ⟨times.getD i 0, vals.getD i 0⟩ else none)

/-- `analyzeBuffer`: windowed RMS series, treble series, and local-maximum
event detection for both. -/
noncomputable def analyzeBuffer (b : AudioDataBuffer) : MusicMap :=
  { duration := bufferDuration b
    beats := detectEvents (rmsValues b) (windowTimes b)
    energySamples := List.zipWith (fun t r => ⟨t, r⟩) (windowTimes b) (rmsValues b)
    trebleSamples := List.zipWith (fun t r => ⟨t, r⟩) (windowTimes b) (trebleRmsValues b)
    treblePeaks := detectEvents (trebleRmsValues b) (windowTimes b) }

/-- Modelled from the spec: the event-detection contract of §4.1 — an index
`i` of a series (first and last excluded) is an event iff it is a strict
local maximum strictly above `mean + 0.5 * stddev` (0 for an empty series). -/
noncomputable def rmsThresholdFromSpec (vals : List ℝ) : ℝ :=
  if vals = [] then 0
  else vals.sum / (vals.length : ℝ) +
    0.5 * Real.sqrt ((vals.map (fun v => (v - vals.sum / (vals.length : ℝ)) ^ 2)).sum / (vals.length : ℝ))

/-- Modelled from the spec: the events of a series per §4.1, as a list in
index order (compare with `detectEvents`). -/
noncomputable def eventsSpec (vals times : List ℝ) : List BeatMarker :=
  (List.range vals.length).filterMap (fun i =>
    if 0 < i ∧ i + 1 < vals.length ∧
        vals.getD (i - 1) 0 < vals.getD i 0 ∧ vals.getD (i + 1) 0 < vals.getD i 0 ∧
        rmsThresholdFromSpec vals < vals.getD i 0
    then some ⟨times.getD i 0, vals.getD i 0⟩ else none)

/-- `TrackNode` from `TrackTypes`.  The boolean `isJump` of the source is
embedded as a `Prop` (membership tests on real-valued times). -/
structure TrackNode where
  t : ℝ
  s : ℝ
  pos : Vec3
  forward : Vec3
  up : Vec3
  isJump : Prop

/-- `TreblePulse` from `TrackTypes`. -/
structure TreblePulse where
  time : ℝ
  pos : Vec3
  intensity : ℝ
  laneIndex : ℤ

/-- `TrackData` from `TrackTypes`. -/
structure TrackData where
  nodes : List TrackNode
  treblePulses : List TreblePulse
  length : ℝ

/-- `LANE_WIDTH = 2.5` from `GameState`. -/
noncomputable def LANE_WIDTH : ℝ := 2.5

def defaultTrackNode : TrackNode := ⟨0, 0, ⟨0, 0, 0⟩, ⟨0, 0, 1⟩, ⟨0, 1, 0⟩, False⟩

def defaultPulse : TreblePulse := ⟨0, ⟨0, 0, 0⟩, 0, 0⟩

/-- `numNodes = Math.max(100, Math.floor(duration * 10))`. -/
noncomputable def numNodes (m : MusicMap) : ℕ :=
  max 100 (Int.toNat ⌊m.duration * 10⌋)

/-- `totalLength = duration * speed` with `speed = 50`. -/
noncomputable def totalLength (m : MusicMap) : ℝ := m.duration * 50

/-- `energySamples[energySamples.length - 1].time` (the series is non-empty
at every use site; an empty series yields the dummy value 0). -/
noncomputable def lastSampleTime (samples : List EnergySample) : ℝ :=
  (samples.getLast?.getD ⟨0, 0⟩).time

/-- `windowSize = duration / energySamples.length * 2` inside `smoothRMS`. -/
noncomputable def smoothWindow (samples : List EnergySample) : ℝ :=
  lastSampleTime samples / (samples.length : ℝ) * 2

/-- `targetTime = (i / (targetCount - 1)) * duration` inside `smoothRMS`. -/
noncomputable def smoothTargetTime (samples : List EnergySample) (targetCount i : ℕ) : ℝ :=
  ((i : ℝ) / ((targetCount : ℝ) - 1)) * lastSampleTime samples

/-- `weight = 1 - dist / windowSize` (triangular kernel). -/
noncomputable def triWeight (tt w time : ℝ) : ℝ := 1 - |time - tt| / w

/-- The body of one `smoothRMS` iteration: fold `(sum, count)` over all
samples, counting only those with `|sample.time - targetTime| < windowSize`,
then return `sum / count` when `count > 0` and 0 otherwise. -/
noncomputable def smoothedAt (samples : List EnergySample) (targetCount i : ℕ) : ℝ :=
  let tt := smoothTargetTime samples targetCount i
  let w := smoothWindow samples
  let acc := samples.foldl (fun acc sm =>
    if |sm.time - tt| < w
    then (acc.1 + sm.rms * triWeight tt w sm.time, acc.2 + triWeight tt w sm.time)
    else acc) ((0 : ℝ), (0 : ℝ))
  if 0 < acc.2 then acc.1 / acc.2 else 0

open Classical in
/-- `smoothRMS(energySamples, targetCount)`.  For an empty series the source
returns `targetCount` zeros.  For `targetCount = 1` the source computes
`t = 0 / 0 = NaN`, so every window test `|time - NaN| < windowSize` is false
and the single emitted value is 0; that NaN path is embedded directly as 0. -/
noncomputable def smoothRMS (energySamples : List EnergySample) (targetCount : ℕ) : List ℝ :=
  if energySamples = [] then List.replicate targetCount 0
  else (List.range targetCount).map (fun i =>
    if targetCount = 1 then 0 else smoothedAt energySamples targetCount i)

open Classical in
/-- `calculateBeatThreshold`: 0 for no beats, otherwise
`strengths.sort(ascending)[floor(length / 2)] * 1.2`. -/
noncomputable def calculateBeatThreshold (beats : List BeatMarker) : ℝ :=
  if beats = [] then 0
  else
    let strengths := List.insertionSort (· ≤ ·) (beats.map (fun bm => bm.strength))
    let median := strengths.getD (strengths.length / 2) 0
    median * 1.2

/-- The strong beats of `generateTrack`: beats with
`strength > calculateBeatThreshold(beats)`, sorted ascending by time. -/
noncomputable def strongBeats (m : MusicMap) : List BeatMarker :=
  List.insertionSort (fun a b => a.time ≤ b.time)
    (m.beats.filter (fun bm => decide (calculateBeatThreshold m.beats < bm.strength)))

/-- The jump timestamps: `strongBeats[i].time` for `i = 3, 7, 11, ...`.
The loop `for (i = 3; i < length; i += 4)` performs exactly `length / 4`
iterations, visiting indices `4*k + 3` for `k < length / 4`. -/
noncomputable def jumpTimesList (m : MusicMap) : List ℝ :=
  (List.range ((strongBeats m).length / 4)).map
    (fun k => ((strongBeats m).getD (4 * k + 3) ⟨0, 0⟩).time)

/-- `t = i / (numNodes - 1)`. -/
noncomputable def nodeT (m : MusicMap) (i : ℕ) : ℝ :=
  (i : ℝ) / ((numNodes m : ℝ) - 1)

/-- `time = t * duration`. -/
noncomputable def nodeTime (m : MusicMap) (i : ℕ) : ℝ := nodeT m i * m.duration

/-- `s = t * totalLength`. -/
noncomputable def nodeS (m : MusicMap) (i : ℕ) : ℝ := nodeT m i * totalLength m

noncomputable def smoothedTrackRMS (m : MusicMap) : List ℝ :=
  smoothRMS m.energySamples (numNodes m)

/-- `y = baseY + (smoothedRMS[Math.floor(t * (smoothedRMS.length - 1))] || 0) * amplitude`
with `baseY = 0`, `amplitude = 6`.  (`v || 0` agrees with the list default 0:
an in-range value that is zero maps to 0 either way.) -/
noncomputable def nodeY (m : MusicMap) (i : ℕ) : ℝ :=
  let sm := smoothedTrackRMS m
  let rmsIndex := Int.toNat ⌊nodeT m i * ((sm.length : ℝ) - 1)⌋
  0 + sm.getD rmsIndex 0 * 6

/-- `pos = (sin(time * 0.1) * 2, y, s)`. -/
noncomputable def nodePos (m : MusicMap) (i : ℕ) : Vec3 :=
  ⟨Real.sin (nodeTime m i * 0.1) * 2, nodeY m i, nodeS m i⟩

/-- The forward vectors after the second pass of `generateTrack`: node `i`
gets `normalize(pos[i+1] - pos[i])` for `i < numNodes - 1`; the last node
copies the second-to-last forward; a single-node track would keep the
placeholder `(0, 0, 1)`. -/
noncomputable def nodeForward (m : MusicMap) (i : ℕ) : Vec3 :=
  if i + 1 < numNodes m then vecNormalize (vecSub (nodePos m (i + 1)) (nodePos m i))
  else if 2 ≤ numNodes m then
    vecNormalize (vecSub (nodePos m (numNodes m - 1)) (nodePos m (numNodes m - 2)))
  else ⟨0, 0, 1⟩

/-- `isJump = jumpTimes.has(time) || jumpTimes.has(time - 0.1) || jumpTimes.has(time + 0.1)`:
note these are three exact membership tests, not an interval test. -/
noncomputable def isJumpNode (m : MusicMap) (i : ℕ) : Prop :=
  nodeTime m i ∈ jumpTimesList m ∨ (nodeTime m i - 0.1) ∈ jumpTimesList m ∨
    (nodeTime m i + 0.1) ∈ jumpTimesList m

noncomputable def trackNode (m : MusicMap) (i : ℕ) : TrackNode :=
  ⟨nodeT m i, nodeS m i, nodePos m i, nodeForward m i, ⟨0, 1, 0⟩, isJumpNode m i⟩

noncomputable def trackNodes (m : MusicMap) : List TrackNode :=
  (List.range (numNodes m)).map (trackNode m)

/-- `Math.max(...strengths)` over a non-empty peak list (the empty case is
guarded at the call site; the dummy value 0 stands in for `-Infinity`). -/
noncomputable def maxPeakStrength (peaks : List BeatMarker) : ℝ :=
  match peaks.map (fun p => p.strength) with
  | [] => 0
  | v :: vs => vs.foldl max v

open Classical in
/-- `createTreblePulses(treblePeaks, nodes, duration)`.  The source maps with
`(peak, index)`; this is embedded as a map over `List.range peaks.length`
reading `peaks[index]`. -/
noncomputable def createTreblePulses (treblePeaks : List BeatMarker) (nodes : List TrackNode)
    (dur : ℝ) : List TreblePulse :=
  if treblePeaks = [] ∨ nodes = [] ∨ dur ≤ 0 then []
  else
    let maxStrength := maxPeakStrength treblePeaks
    let lanePattern : List ℤ := [-1, 1, 0]
    (List.range treblePeaks.length).map (fun index =>
      let peak := treblePeaks.getD index ⟨0, 0⟩
      let normalizedTime := max 0 (min 1 (peak.time / dur))
      let nodeIndex := min (nodes.length - 1)
        (Int.toNat (round (normalizedTime * ((nodes.length : ℝ) - 1))))
      let node := nodes.getD nodeIndex defaultTrackNode
      let right := vecNormalize (vecCross node.forward node.up)
      let laneIndex := lanePattern.getD (index % 3) 0
      let lateralOffset := (laneIndex : ℝ) * LANE_WIDTH
      let normalizedIntensity := if 0 < maxStrength then peak.strength / maxStrength else 0
      let pulsePos := vecAdd (vecAdd node.pos (vecSmul lateralOffset right))
        ⟨0, 0.6 + normalizedIntensity * 1.8, 0⟩
      ⟨peak.time, pulsePos, normalizedIntensity, laneIndex⟩)

/-- `generateTrack(musicMap)`. -/
noncomputable def generateTrack (m : MusicMap) : TrackData :=
  ⟨trackNodes m, createTreblePulses m.treblePeaks (trackNodes m) m.duration, totalLength m⟩

/-- The fields of a generated treble pulse that `maybeAutoDodge` reads:
`pulse.pos.z` and `pulse.laneIndex`.  The lane logic only performs field
arithmetic and comparisons, so it is embedded over `ℚ` to stay executable. -/
structure DodgePulse where
  z : ℚ
  laneIndex : ℤ
deriving DecidableEq

/-- The game state read and written by the lane logic:
`gameState.car.laneOffsetIndex`, `gameState.car.distance` and the
controller's `lastAutoLaneChange` timestamp. -/
structure AutoDodgeState where
  laneOffsetIndex : ℤ
  distance : ℚ
  lastAutoLaneChange : ℚ
deriving DecidableEq

/-- `handleInput(key)`: ArrowLeft moves to `max(-1, lane - 1)`, ArrowRight to
`min(1, lane + 1)`, any other key leaves the lane unchanged. -/
def handleInput (key : String) (lane : ℤ) : ℤ :=
  if key = "ArrowLeft" then max (-1) (lane - 1)
  else if key = "ArrowRight" then min 1 (lane + 1)
  else lane

/-- `applyLaneChange(state, targetLane)`: the written lane is
`Math.max(-1, Math.min(1, targetLane))`. -/
def applyLaneChange (targetLane : ℤ) : ℤ := max (-1) (min 1 targetLane)

/-- `upcomingPulses`: pulses with `0 < pulse.pos.z - carDistance < lookAhead`
(`lookAhead = 25`). -/
def upcomingPulses (pulses : List DodgePulse) (carDistance : ℚ) : List DodgePulse :=
  pulses.filter (fun p => decide (0 < p.z - carDistance ∧ p.z - carDistance < 25))

/-- `upcomingPulses.find(...)`: the first upcoming pulse in the current lane
within `conflictRange = 8`. -/
def findBlockingPulse (pulses : List DodgePulse) (st : AutoDodgeState) : Option DodgePulse :=
  (upcomingPulses pulses st.distance).find?
    (fun p => decide (p.laneIndex = st.laneOffsetIndex ∧ p.z - st.distance < 8))

/-- `safeLanes`: candidate lanes `[-1, 0, 1]` other than the blocked lane with
no upcoming pulse of their own within the conflict range. -/
def safeLanes (pulses : List DodgePulse) (st : AutoDodgeState) (blocking : DodgePulse) :
    List ℤ :=
  ([-1, 0, 1] : List ℤ).filter (fun lane => decide (lane ≠ blocking.laneIndex ∧
    ¬ ∃ p ∈ upcomingPulses pulses st.distance, p.laneIndex = lane ∧ p.z - st.distance < 8))

/-- `lanePulses.reduce(min of positive deltas, lookAhead)`. -/
def nearestObstacle (lanePulses : List DodgePulse) (carDistance : ℚ) : ℚ :=
  lanePulses.foldl
    (fun nearest p => if 0 < p.z - carDistance then min nearest (p.z - carDistance) else nearest)
    25

/-- `lanePulses.reduce(sum of 1 / max(1, delta) over positive deltas, 0)`. -/
def obstaclePressure (lanePulses : List DodgePulse) (carDistance : ℚ) : ℚ :=
  lanePulses.foldl
    (fun pressure p =>
      pressure + (if 0 < p.z - carDistance then 1 / max 1 (p.z - carDistance) else 0))
    0

/-- `safetyScore = nearestObstacle - obstaclePressure - laneChangeCost + randomness`
with `laneChangeCost = |lane - currentLane| * 0.35`.  `Math.random() * 0.15`
is exposed as the injectable draw `rand lane` (one draw per scored lane). -/
def laneScore (pulses : List DodgePulse) (st : AutoDodgeState) (rand : ℤ → ℚ) (lane : ℤ) : ℚ :=
  let lanePulses := (upcomingPulses pulses st.distance).filter (fun p => decide (p.laneIndex = lane))
  nearestObstacle lanePulses st.distance - obstaclePressure lanePulses st.distance
    - |(lane : ℚ) - (st.laneOffsetIndex : ℚ)| * 0.35 + rand lane

/-- `scoredLanes.sort((a, b) => b.safetyScore - a.safetyScore)[0]`: a stable
descending sort followed by taking the head returns the first-seen entry of
maximal score, which is what this computes directly. -/
def selectBest : List (ℤ × ℚ) → Option (ℤ × ℚ)
  | [] => none
  | p :: rest =>
    match selectBest rest with
    | none => some p
    | some q => some (if p.2 < q.2 then q else p)

/-- `maybeAutoDodge(audioTime)`: cooldown check (0.4 s), blocking-pulse
check, safe-lane scoring, and the lane/timestamp write. -/
def maybeAutoDodge (pulses : List DodgePulse) (rand : ℤ → ℚ) (st : AutoDodgeState)
    (audioTime : ℚ) : AutoDodgeState :=
  if audioTime - st.lastAutoLaneChange < 0.4 then st
  else
    match findBlockingPulse pulses st with
    | none => st
    | some blocking =>
      let safe := safeLanes pulses st blocking
      if safe = [] then st
      else
        let scored := safe.map (fun lane => (lane, laneScore pulses st rand lane))
        match selectBest scored with
        | none => st
        | some best => ⟨best.1, st.distance, audioTime⟩

/-- Modelled from the spec: the lane score of claim C6 —
`nearestObstacleDistance` (minimum forward distance to that lane's upcoming
hazards, 25 if there are none) minus the sum over the lane's upcoming hazards
of `1 / max(1, forwardDistance)`, minus `0.35 * |lane - currentLane|`, plus
the random draw. -/
def laneScoreSpec (pulses : List DodgePulse) (st : AutoDodgeState) (rand : ℤ → ℚ) (lane : ℤ) : ℚ :=
  let ds := ((upcomingPulses pulses st.distance).filter
    (fun p => decide (p.laneIndex = lane))).map (fun p => p.z - st.distance)
  (ds.min?.getD 25) - (ds.map (fun d => 1 / max 1 d)).sum
    - 0.35 * |(lane : ℚ) - (st.laneOffsetIndex : ℚ)| + rand lane

open Classical in
/-- Modelled from the spec: the triangular-kernel weighted average of claim
C5 — over all samples whose time lies within a window of half-width
`2 * (duration / numSamples)` around the target time `(i / (N - 1)) * duration`,
each weighted `1 - distance / window`, normalized by the sum of the weights,
and 0 if no sample falls inside the window. -/
noncomputable def specSmoothedValue (samples : List EnergySample) (targetCount i : ℕ) : ℝ :=
  let dur := lastSampleTime samples
  let tt := ((i : ℝ) / ((targetCount : ℝ) - 1)) * dur
  let w := 2 * (dur / (samples.length : ℝ))
  let inWin := samples.filter (fun sm => decide (|sm.time - tt| < w))
  if inWin = [] then 0
  else ((inWin.map (fun sm => sm.rms * (1 - |sm.time - tt| / w))).sum) /
    ((inWin.map (fun sm => 1 - |sm.time - tt| / w)).sum)

/-- Whether some sample's time lies strictly within the smoothing window
around target position `i` of `targetCount` (used to state claim C8). -/
noncomputable def hasSampleInWindow (samples : List EnergySample) (targetCount i : ℕ) : Prop :=
  ∃ sm ∈ samples, |sm.time - smoothTargetTime samples targetCount i| < smoothWindow samples

/-- An `IsTotal` instance for ordering beat markers by time. -/
instance : IsTotal BeatMarker (fun a b => a.time ≤ b.time) :=
  ⟨fun a b => le_total a.time b.time⟩

/-- An `IsTrans` instance for ordering beat markers by time. -/
instance : IsTrans BeatMarker (fun a b => a.time ≤ b.time) :=
  ⟨fun _ _ _ h1 h2 => le_trans h1 h2⟩

/-- A `MusicMap` with non-positive duration (a zero-length recording). -/
def exMapZero : MusicMap := ⟨0, [], [], [], []⟩

/-- A `MusicMap` with positive duration and no events. -/
def exMapOne : MusicMap := ⟨1, [], [], [], []⟩

/-- A 10-second `MusicMap` with five weak beats and four strong beats whose
fourth strong beat (0-based index 3) falls at time 5. -/
def exMapJump : MusicMap :=
  ⟨10,
   [⟨0.1, 0⟩, ⟨0.2, 0⟩, ⟨0.3, 0⟩, ⟨0.4, 0⟩, ⟨0.5, 0⟩, ⟨1, 1⟩, ⟨2, 1⟩, ⟨3, 1⟩, ⟨5, 1⟩],
   [], [], []⟩

/-- A single energy sample at time 0 with constant rms 1. -/
def exSamplesConst : List EnergySample := [⟨0, 1⟩]

/-- Two energy samples with constant rms 1 over one second. -/
def exSamplesTwo : List EnergySample := [⟨0, 1⟩, ⟨1, 1⟩]

/-- An audio buffer of nine samples at sample rate 40 (hop size 3), whose
three windows have RMS values 1, 3, 2: the middle window is a strict local
maximum above the threshold. -/
noncomputable def exBuf : AudioDataBuffer := ⟨[1, 1, 1, 3, 3, 3, 2, 2, 2], 40⟩

/-- An empty audio buffer. -/
noncomputable def exBufEmpty : AudioDataBuffer := ⟨[], 1⟩

/-- One treble peak of strength 2 at time 0. -/
def exPeaks : List BeatMarker := [⟨0, 2⟩]

/-- The scenario of claim C6: one pulse at forward distance 5 in lane 0. -/
def exPulses : List DodgePulse := [⟨5, 0⟩]

/-- The scenario of claim C6: car in lane 0 at distance 0, last automatic
lane change at time 0. -/
def exState : AutoDodgeState := ⟨0, 0, 0⟩

/-- The random draw held at 0. -/
def randZero : ℤ → ℚ := fun _ => 0

lemma mem_upcoming {pulses : List DodgePulse} {c : ℚ} {p : DodgePulse}
    (h : p ∈ upcomingPulses pulses c) : 0 < p.z - c ∧ p.z - c < 25 := by
  unfold upcomingPulses at h
  rw [List.mem_filter] at h
  exact of_decide_eq_true h.2

lemma selectBest_eq_none {l : List (ℤ × ℚ)} : selectBest l = none ↔ l = [] := by
  cases l with
  | nil => simp [selectBest]
  | cons p rest =>
    simp only [selectBest]
    cases selectBest rest <;> simp

lemma selectBest_spec (l : List (ℤ × ℚ)) (x : ℤ × ℚ) (h : selectBest l = some x) :
    ∃ k, ∃ hk : k < l.length, l[k] = x ∧
      (∀ j (hj : j < l.length), (l[j]).2 ≤ x.2) ∧
      (∀ j (hjk : j < k) (hj : j < l.length), (l[j]).2 < x.2) := by
  induction l generalizing x with
  | nil => simp [selectBest] at h
  | cons p rest ih =>
    rw [selectBest] at h
    cases hs : selectBest rest with
    | none =>
      rw [hs] at h
      have hx : p = x := by simpa using h
      have hrest : rest = [] := selectBest_eq_none.mp hs
      subst hx; subst hrest
      refine ⟨0, by simp, by simp, ?_, by omega⟩
      intro j hj
      simp at hj
      subst hj
      simp
    | some q =>
      rw [hs] at h
      obtain ⟨k, hk, hget, hall, hpre⟩ := ih q hs
      have h2 : some (if p.2 < q.2 then q else p) = some x := h
      by_cases hc : p.2 < q.2
      · rw [if_pos hc] at h2
        have hx : q = x := by simpa using h2
        subst hx
        refine ⟨k + 1, by simpa using Nat.succ_lt_succ hk, by simpa using hget, ?_, ?_⟩
        · intro j hj
          cases j with
          | zero => simpa using le_of_lt hc
          | succ j' => simpa using hall j' (by simpa using hj)
        · intro j hjk hj
          cases j with
          | zero => simpa using hc
          | succ j' => simpa using hpre j' (by omega) (by simpa using hj)
      · rw [if_neg hc] at h2
        have hx : p = x := by simpa using h2
        subst hx
        refine ⟨0, by simp, by simp, ?_, by omega⟩
        intro j hj
        cases j with
        | zero => simp
        | succ j' =>
          have hj' : j' < rest.length := by simpa using hj
          have h1 : (rest.get ⟨j', hj'⟩).2 ≤ q.2 := hall j' hj'
          have h2 : q.2 ≤ p.2 := not_lt.mp hc
          simpa using le_trans h1 h2

lemma selectBest_mem {l : List (ℤ × ℚ)} {x : ℤ × ℚ} (h : selectBest l = some x) : x ∈ l := by
  obtain ⟨k, hk, hget, -, -⟩ := selectBest_spec l x h
  exact hget ▸ List.getElem_mem hk

lemma foldl_min_assoc (l : List ℚ) : ∀ a b : ℚ, l.foldl min (min a b) = min a (l.foldl min b) := by
  induction l with
  | nil => intro a b; rfl
  | cons c t ih =>
    intro a b
    simp only [List.foldl_cons]
    rw [min_assoc, ih]

lemma foldl_min_le_init (l : List ℚ) : ∀ a : ℚ, l.foldl min a ≤ a := by
  induction l with
  | nil => intro a; exact le_refl a
  | cons c t ih =>
    intro a
    simp only [List.foldl_cons]
    exact le_trans (ih (min a c)) (min_le_left a c)

lemma foldl_min_eq_min? (l : List ℚ) : ∀ a : ℚ, l.foldl min a = min a (l.min?.getD a) := by
  induction l with
  | nil => intro a; simp
  | cons x t ih =>
    intro a
    simp only [List.foldl_cons]
    rw [ih (min a x), List.min?_cons]
    cases ht : t.min? with
    | none => simp [ht]
    | some m =>
      simp only [ht, Option.getD_some, Option.elim]
      rw [min_assoc]

lemma nearestObstacle_aux (l : List DodgePulse) (c : ℚ) :
    ∀ a : ℚ, (∀ p ∈ l, 0 < p.z - c) →
      l.foldl (fun nearest p => if 0 < p.z - c then min nearest (p.z - c) else nearest) a
        = (l.map (fun p => p.z - c)).foldl min a := by
  induction l with
  | nil => intro a _; rfl
  | cons p t ih =>
    intro a h
    simp only [List.foldl_cons, List.map_cons]
    rw [if_pos (h p (List.mem_cons_self p t))]
    exact ih (min a (p.z - c)) (fun q hq => h q (List.mem_cons_of_mem p hq))

lemma nearestObstacle_eq (l : List DodgePulse) (c : ℚ)
    (h : ∀ p ∈ l, 0 < p.z - c ∧ p.z - c < 25) :
    nearestObstacle l c = (l.map (fun p => p.z - c)).min?.getD 25 := by
  unfold nearestObstacle
  rw [nearestObstacle_aux l c 25 (fun p hp => (h p hp).1)]
  rw [foldl_min_eq_min?]
  cases hm : (l.map (fun p => p.z - c)).min? with
  | none => simp
  | some m =>
    simp only [Option.getD_some]
    have hmem : m ∈ l.map (fun p => p.z - c) := List.min?_mem (fun a b => min_choice a b) hm
    obtain ⟨p, hp, hpd⟩ := List.mem_map.mp hmem
    have hm25 : m < 25 := hpd ▸ (h p hp).2
    exact min_eq_right (le_of_lt hm25)

lemma obstaclePressure_aux (l : List DodgePulse) (c : ℚ) :
    ∀ a : ℚ, (∀ p ∈ l, 0 < p.z - c) →
      l.foldl (fun pressure p => pressure + (if 0 < p.z - c then 1 / max 1 (p.z - c) else 0)) a
        = a + (l.map (fun p => 1 / max 1 (p.z - c))).sum := by
  induction l with
  | nil => intro a _; simp
  | cons p t ih =>
    intro a h
    simp only [List.foldl_cons, List.map_cons, List.sum_cons]
    rw [if_pos (h p (List.mem_cons_self p t))]
    rw [ih (a + 1 / max 1 (p.z - c)) (fun q hq => h q (List.mem_cons_of_mem p hq))]
    ring

lemma laneScore_eq_spec (pulses : List DodgePulse) (st : AutoDodgeState) (rand : ℤ → ℚ)
    (lane : ℤ) : laneScore pulses st rand lane = laneScoreSpec pulses st rand lane := by
  have hmem : ∀ p ∈ (upcomingPulses pulses st.distance).filter
      (fun p => decide (p.laneIndex = lane)), 0 < p.z - st.distance ∧ p.z - st.distance < 25 := by
    intro p hp
    exact mem_upcoming (List.mem_filter.mp hp).1
  simp only [laneScore, laneScoreSpec, obstaclePressure]
  rw [nearestObstacle_eq _ _ hmem, obstaclePressure_aux _ _ 0 (fun p hp => (hmem p hp).1)]
  simp only [List.map_map, Function.comp_def, zero_add]
  ring

lemma dodge_state_cases (pulses : List DodgePulse) (rand : ℤ → ℚ) (st : AutoDodgeState)
    (t : ℚ) : maybeAutoDodge pulses rand st t = st ∨
      (maybeAutoDodge pulses rand st t).lastAutoLaneChange = t := by
  unfold maybeAutoDodge
  by_cases h1 : t - st.lastAutoLaneChange < 0.4
  · rw [if_pos h1]; left; rfl
  · rw [if_neg h1]
    cases hf : findBlockingPulse pulses st with
    | none => left; rfl
    | some blocking =>
      simp only
      by_cases h2 : safeLanes pulses st blocking = []
      · rw [if_pos h2]; left; rfl
      · rw [if_neg h2]
        cases hs : selectBest ((safeLanes pulses st blocking).map
            (fun lane => (lane, laneScore pulses st rand lane))) with
        | none => left; rfl
        | some best => right; rfl

/-- C6: when a blocking hazard and at least one safe lane exist, every lane's
score is `nearestObstacleDistance` (25 when the lane has no upcoming hazard)
minus the pressure sum `1 / max(1, forwardDistance)` minus
`0.35 * |lane - currentLane|` plus the injected random draw, and the dodge
selects the safe lane of highest score, ties broken first-seen
(the strict-inequality clause over earlier indices). -/
theorem C6_dodge_scoring (pulses : List DodgePulse) (rand : ℤ → ℚ) (st : AutoDodgeState)
    (t : ℚ) (bp : DodgePulse)
    (hcd : ¬ (t - st.lastAutoLaneChange < 0.4))
    (hbp : findBlockingPulse pulses st = some bp)
    (hsafe : safeLanes pulses st bp ≠ []) :
    (∀ lane : ℤ, laneScore pulses st rand lane = laneScoreSpec pulses st rand lane) ∧
    (∃ k, ∃ hk : k < (safeLanes pulses st bp).length,
      (maybeAutoDodge pulses rand st t).laneOffsetIndex = (safeLanes pulses st bp)[k] ∧
      (maybeAutoDodge pulses rand st t).lastAutoLaneChange = t ∧
      (maybeAutoDodge pulses rand st t).distance = st.distance ∧
      (∀ j (hj : j < (safeLanes pulses st bp).length),
        laneScore pulses st rand ((safeLanes pulses st bp)[j]) ≤
          laneScore pulses st rand ((safeLanes pulses st bp)[k])) ∧
      (∀ j (hjk : j < k) (hj : j < (safeLanes pulses st bp).length),
        laneScore pulses st rand ((safeLanes pulses st bp)[j]) <
          laneScore pulses st rand ((safeLanes pulses st bp)[k]))) := by
  refine ⟨fun lane => laneScore_eq_spec pulses st rand lane, ?_⟩
  have hne : (safeLanes pulses st bp).map
      (fun lane => (lane, laneScore pulses st rand lane)) ≠ [] := by
    simpa using hsafe
  cases hsel : selectBest ((safeLanes pulses st bp).map
      (fun lane => (lane, laneScore pulses st rand lane))) with
  | none => exact absurd (selectBest_eq_none.mp hsel) hne
  | some best =>
    have hdodge : maybeAutoDodge pulses rand st t = ⟨best.1, st.distance, t⟩ := by
      unfold maybeAutoDodge
      rw [if_neg hcd, hbp]
      simp only
      rw [if_neg hsafe, hsel]
    obtain ⟨k, hk, hget, hall, hpre⟩ := selectBest_spec _ best hsel
    rw [List.length_map] at hk
    refine ⟨k, hk, ?_, ?_, ?_, ?_, ?_⟩
    · rw [hdodge]
      have := hget
      rw [List.getElem_map] at this
      exact congrArg Prod.fst this.symm ▸ rfl
    · rw [hdodge]
    · rw [hdodge]
    · intro j hj
      have h1 := hall j (by rw [List.length_map]; exact hj)
      rw [List.getElem_map] at h1
      have h2 := hget
      rw [List.getElem_map] at h2
      calc laneScore pulses st rand ((safeLanes pulses st bp)[j])
          ≤ best.2 := h1
        _ = laneScore pulses st rand ((safeLanes pulses st bp)[k]) :=
            (congrArg Prod.snd h2).symm
    · intro j hjk hj
      have h1 := hpre j hjk (by rw [List.length_map]; exact hj)
      rw [List.getElem_map] at h1
      have h2 := hget
      rw [List.getElem_map] at h2
      calc laneScore pulses st rand ((safeLanes pulses st bp)[j])
          < best.2 := h1
        _ = laneScore pulses st rand ((safeLanes pulses st bp)[k]) :=
            (congrArg Prod.snd h2).symm

/-- C6 witness: the concrete scenario — one blocking hazard in lane 0 at
forward distance 5, no hazards in lanes -1 and 1, random draw 0: lanes -1 and
1 score equally (24.65 each) and the first-seen tie-break selects lane -1. -/
theorem C6_dodge_scoring_witness :
    (¬ ((1 : ℚ) - exState.lastAutoLaneChange < 0.4)) ∧
    findBlockingPulse exPulses exState = some ⟨5, 0⟩ ∧
    safeLanes exPulses exState ⟨5, 0⟩ = [-1, 1] ∧
    laneScore exPulses exState randZero (-1) = laneScore exPulses exState randZero 1 ∧
    laneScore exPulses exState randZero (-1) = laneScoreSpec exPulses exState randZero (-1) ∧
    (maybeAutoDodge exPulses randZero exState 1).laneOffsetIndex = -1 := by
  have hcd : ¬ ((1 : ℚ) - exState.lastAutoLaneChange < 0.4) := by norm_num [exState]
  have hbp : findBlockingPulse exPulses exState = some ⟨5, 0⟩ := by
    norm_num [findBlockingPulse, upcomingPulses, exPulses, exState, List.filter, List.find?]
  have hsl : safeLanes exPulses exState ⟨5, 0⟩ = [-1, 1] := by
    norm_num [safeLanes, upcomingPulses, exPulses, exState, List.filter]
  refine ⟨hcd, hbp, hsl, ?_, ?_, ?_⟩
  · norm_num [laneScore, upcomingPulses, nearestObstacle, obstaclePressure, exPulses, exState,
      randZero, List.filter]
  · exact (C6_dodge_scoring exPulses randZero exState 1 ⟨5, 0⟩ hcd hbp
      (by rw [hsl]; decide)).1 (-1)
  · norm_num [maybeAutoDodge, findBlockingPulse, safeLanes, upcomingPulses, laneScore,
      nearestObstacle, obstaclePressure, selectBest, exPulses, exState, randZero,
      List.filter, List.find?]
    decide

/-- C7: the dodge makes no new decision within 0.4 s of the previous one —
under cooldown the state (lane and timestamp) is returned unchanged — and
consequently two calls 0.2 s apart change the lane at most once: either the
first call was already a no-op, or the second is. -/
theorem C7_dodge_cooldown :
    (∀ (pulses : List DodgePulse) (rand : ℤ → ℚ) (st : AutoDodgeState) (t : ℚ),
      t - st.lastAutoLaneChange < 0.4 → maybeAutoDodge pulses rand st t = st) ∧
    (∀ (p₁ p₂ : List DodgePulse) (r₁ r₂ : ℤ → ℚ) (st : AutoDodgeState) (t : ℚ),
      maybeAutoDodge p₁ r₁ st t = st ∨
        maybeAutoDodge p₂ r₂ (maybeAutoDodge p₁ r₁ st t) (t + 0.2) =
          maybeAutoDodge p₁ r₁ st t) := by
  have hfirst : ∀ (pulses : List DodgePulse) (rand : ℤ → ℚ) (st : AutoDodgeState) (t : ℚ),
      t - st.lastAutoLaneChange < 0.4 → maybeAutoDodge pulses rand st t = st := by
    intro pulses rand st t h
    unfold maybeAutoDodge
    rw [if_pos h]
  refine ⟨hfirst, ?_⟩
  intro p₁ p₂ r₁ r₂ st t
  rcases dodge_state_cases p₁ r₁ st t with h | h
  · left; exact h
  · right
    apply hfirst
    rw [h]
    norm_num

/-- C7 witness: with the previous decision at time 0, a call at time 0.2 is
inside the cooldown and leaves the state unchanged. -/
theorem C7_dodge_cooldown_witness :
    ((0.2 : ℚ) - exState.lastAutoLaneChange < 0.4) ∧
      maybeAutoDodge exPulses randZero exState 0.2 = exState :=
  ⟨by norm_num [exState],
   C7_dodge_cooldown.1 exPulses randZero exState 0.2 (by norm_num [exState])⟩

/-- C10: every lane write stays in the grid — `handleInput` clamps at both
boundaries (ArrowLeft in lane -1 and ArrowRight in lane 1 are no-ops, and any
key preserves membership in [-1, 1]), `applyLaneChange` clamps its target to
[-1, 1], and the automatic dodge either leaves the lane unchanged or selects
one of the lanes -1, 0, 1. -/
theorem C10_lane_bounds :
    (handleInput "ArrowLeft" (-1) = -1 ∧ handleInput "ArrowRight" 1 = 1) ∧
    (∀ (key : String) (lane : ℤ), -1 ≤ lane → lane ≤ 1 →
      -1 ≤ handleInput key lane ∧ handleInput key lane ≤ 1) ∧
    (∀ targetLane : ℤ, -1 ≤ applyLaneChange targetLane ∧ applyLaneChange targetLane ≤ 1) ∧
    (∀ (pulses : List DodgePulse) (rand : ℤ → ℚ) (st : AutoDodgeState) (t : ℚ),
      (maybeAutoDodge pulses rand st t).laneOffsetIndex = st.laneOffsetIndex ∨
        (maybeAutoDodge pulses rand st t).laneOffsetIndex ∈ ([-1, 0, 1] : List ℤ)) := by
  refine ⟨⟨by decide, by decide⟩, ?_, ?_, ?_⟩
  · intro key lane h1 h2
    unfold handleInput
    split_ifs <;> constructor <;> omega
  · intro targetLane
    unfold applyLaneChange
    constructor <;> omega
  · intro pulses rand st t
    unfold maybeAutoDodge
    by_cases h1 : t - st.lastAutoLaneChange < 0.4
    · rw [if_pos h1]; left; rfl
    · rw [if_neg h1]
      cases hf : findBlockingPulse pulses st with
      | none => left; rfl
      | some blocking =>
        simp only
        by_cases h2 : safeLanes pulses st blocking = []
        · rw [if_pos h2]; left; rfl
        · rw [if_neg h2]
          cases hs : selectBest ((safeLanes pulses st blocking).map
              (fun lane => (lane, laneScore pulses st rand lane))) with
          | none => left; rfl
          | some best =>
            right
            have hmem := selectBest_mem hs
            obtain ⟨lane, hlane, hbest⟩ := List.mem_map.mp hmem
            have hl : lane ∈ ([-1, 0, 1] : List ℤ) :=
              (List.mem_filter.mp hlane).1
            have : best.1 = lane := by rw [← hbest]
            simpa [this] using hl

/-- C10 witness: `handleInput` applied inside the grid stays inside it. -/
theorem C10_lane_bounds_witness :
    ((-1 : ℤ) ≤ 0 ∧ (0 : ℤ) ≤ 1) ∧
      (-1 ≤ handleInput "ArrowLeft" 0 ∧ handleInput "ArrowLeft" 0 ≤ 1) :=
  ⟨⟨by decide, by decide⟩, C10_lane_bounds.2.1 "ArrowLeft" 0 (by decide) (by decide)⟩

lemma chunkBounds_zero (hop : ℕ) : chunkBounds 0 hop = [] := by
  unfold chunkBounds
  rw [chunkBoundsAux]
  simp

/-- C2: for every input whose sample buffer is empty or whose duration is
non-positive, `analyzeBuffer` returns a `MusicMap` in which beats,
energySamples, trebleSamples and treblePeaks are all empty, and both
detection thresholds are 0.  (A Web Audio buffer has positive sample rate,
and its duration getter is `length / sampleRate`.) -/
theorem C2_degenerate_input (b : AudioDataBuffer) (hsr : 0 < b.sampleRate)
    (h : b.channelData = [] ∨ bufferDuration b ≤ 0) :
    analyzeBuffer b = ⟨bufferDuration b, [], [], [], []⟩ ∧
    calculateRMSThreshold (rmsValues b) = 0 ∧
    calculateRMSThreshold (trebleRmsValues b) = 0 := by
  have hdata : b.channelData = [] := by
    rcases h with h | h
    · exact h
    · unfold bufferDuration at h
      have hsr2 : (0 : ℝ) < (b.sampleRate : ℝ) := by exact_mod_cast hsr
      have hlen : (b.channelData.length : ℝ) ≤ 0 := by
        by_contra hlt
        push_neg at hlt
        have := div_pos hlt hsr2
        linarith
      have hlen0 : b.channelData.length = 0 := by
        have h0 : (0 : ℝ) ≤ (b.channelData.length : ℝ) := by positivity
        exact_mod_cast le_antisymm hlen h0
      exact List.length_eq_zero.mp hlen0
  have hchunks : chunkBounds b.channelData.length (hopSize b) = [] := by
    rw [hdata]
    exact chunkBounds_zero _
  have hrms : rmsValues b = [] := by unfold rmsValues; rw [hchunks]; rfl
  have htreble : trebleRmsValues b = [] := by unfold trebleRmsValues; rw [hchunks]; rfl
  have htimes : windowTimes b = [] := by unfold windowTimes; rw [hchunks]; rfl
  have hdetect : ∀ ts : List ℝ, detectEvents [] ts = [] := by
    intro ts; unfold detectEvents; simp
  refine ⟨?_, ?_, ?_⟩
  · unfold analyzeBuffer
    rw [hrms, htreble, htimes]
    simp [hdetect]
  · rw [hrms]; unfold calculateRMSThreshold; simp
  · rw [htreble]; unfold calculateRMSThreshold; simp

/-- C2 witness: the empty buffer at sample rate 1. -/
theorem C2_degenerate_input_witness :
    (0 : ℚ) < exBufEmpty.sampleRate ∧ exBufEmpty.channelData = [] ∧
      analyzeBuffer exBufEmpty = ⟨bufferDuration exBufEmpty, [], [], [], []⟩ :=
  ⟨by norm_num [exBufEmpty], rfl,
   (C2_degenerate_input exBufEmpty (by norm_num [exBufEmpty]) (Or.inl rfl)).1⟩

lemma smoothRMS_length (samples : List EnergySample) (n : ℕ) :
    (smoothRMS samples n).length = n := by
  unfold smoothRMS
  split_ifs <;> simp

lemma trackNodes_length (m : MusicMap) : (trackNodes m).length = numNodes m := by
  unfold trackNodes
  simp

lemma trackNodes_getD (m : MusicMap) (i : ℕ) (h : i < numNodes m) :
    (trackNodes m).getD i defaultTrackNode = trackNode m i := by
  unfold trackNodes
  rw [List.getD_eq_getElem?_getD, List.getElem?_map, List.getElem?_range h]
  rfl

lemma numNodes_ge_two (m : MusicMap) : 2 ≤ numNodes m :=
  le_trans (by norm_num) (le_max_left 100 _)

lemma numNodes_cast_sub_pos (m : MusicMap) : (0 : ℝ) < (numNodes m : ℝ) - 1 := by
  have h : (100 : ℕ) ≤ numNodes m := le_max_left _ _
  have h2 : (100 : ℝ) ≤ (numNodes m : ℝ) := by exact_mod_cast h
  linarith

lemma nodeS_strictMono (m : MusicMap) (hd : 0 < m.duration) {i j : ℕ} (hij : i < j) :
    nodeS m i < nodeS m j := by
  unfold nodeS nodeT totalLength
  have hN := numNodes_cast_sub_pos m
  have hij2 : (i : ℝ) < (j : ℝ) := by exact_mod_cast hij
  have hpos : (0 : ℝ) < m.duration * 50 := by linarith
  apply mul_lt_mul_of_pos_right _ hpos
  exact (div_lt_div_iff_of_pos_right hN).mpr hij2

lemma vecLength_pos_of_z (v : Vec3) (h : v.z ≠ 0) : 0 < vecLength v := by
  unfold vecLength
  apply Real.sqrt_pos.mpr
  have hx : 0 ≤ v.x * v.x := mul_self_nonneg _
  have hy : 0 ≤ v.y * v.y := mul_self_nonneg _
  have hz : 0 < v.z * v.z := mul_self_pos.mpr h
  linarith

lemma vecLength_normalize (v : Vec3) (h : vecLength v ≠ 0) :
    vecLength (vecNormalize v) = 1 := by
  unfold vecNormalize
  rw [if_neg h]
  have hS : 0 ≤ v.x * v.x + v.y * v.y + v.z * v.z := by
    have hx := mul_self_nonneg v.x
    have hy := mul_self_nonneg v.y
    have hz := mul_self_nonneg v.z
    linarith
  have hLpos : 0 < vecLength v :=
    lt_of_le_of_ne (Real.sqrt_nonneg _) (Ne.symm h)
  have hLL : vecLength v * vecLength v = v.x * v.x + v.y * v.y + v.z * v.z :=
    Real.mul_self_sqrt hS
  have hgoal : vecLength (vecSmul (1 / vecLength v) v) =
      Real.sqrt (1 / vecLength v * v.x * (1 / vecLength v * v.x) +
        1 / vecLength v * v.y * (1 / vecLength v * v.y) +
        1 / vecLength v * v.z * (1 / vecLength v * v.z)) := rfl
  rw [hgoal]
  have hcomp : 1 / vecLength v * v.x * (1 / vecLength v * v.x) +
      1 / vecLength v * v.y * (1 / vecLength v * v.y) +
      1 / vecLength v * v.z * (1 / vecLength v * v.z) = 1 := by
    field_simp
    linear_combination (-1 : ℝ) * hLL
  rw [hcomp, Real.sqrt_one]

lemma nodeForward_unit (m : MusicMap) (hd : 0 < m.duration) (i : ℕ) :
    vecLength (nodeForward m i) = 1 := by
  have h2 : 2 ≤ numNodes m := numNodes_ge_two m
  unfold nodeForward
  by_cases h : i + 1 < numNodes m
  · rw [if_pos h]
    apply vecLength_normalize
    apply ne_of_gt
    apply vecLength_pos_of_z
    have hz : (vecSub (nodePos m (i + 1)) (nodePos m i)).z = nodeS m (i + 1) - nodeS m i := rfl
    rw [hz]
    have := nodeS_strictMono m hd (Nat.lt_succ_self i)
    linarith
  · rw [if_neg h, if_pos h2]
    apply vecLength_normalize
    apply ne_of_gt
    apply vecLength_pos_of_z
    have hz : (vecSub (nodePos m (numNodes m - 1)) (nodePos m (numNodes m - 2))).z
        = nodeS m (numNodes m - 1) - nodeS m (numNodes m - 2) := rfl
    rw [hz]
    have hlt : numNodes m - 2 < numNodes m - 1 := by omega
    have := nodeS_strictMono m hd hlt
    linarith

/-- C1 (amended: positive duration): for every `MusicMap` with positive
duration, the generated node sequence is strictly increasing in cumulative
distance `s`, every node's `forward` is a unit vector, and the last node's
`forward` equals the second-to-last node's. -/
theorem C1_track_invariants (m : MusicMap) (hd : 0 < m.duration) :
    List.Pairwise (fun a b => a.s < b.s) (generateTrack m).nodes ∧
    (∀ n ∈ (generateTrack m).nodes, vecLength n.forward = 1) ∧
    ((generateTrack m).nodes.getD ((generateTrack m).nodes.length - 1) defaultTrackNode).forward
      = ((generateTrack m).nodes.getD ((generateTrack m).nodes.length - 2)
          defaultTrackNode).forward := by
  have h2 : 2 ≤ numNodes m := numNodes_ge_two m
  have hnodes : (generateTrack m).nodes = trackNodes m := rfl
  refine ⟨?_, ?_, ?_⟩
  · rw [hnodes]
    unfold trackNodes
    rw [List.pairwise_map]
    exact (List.pairwise_lt_range _).imp (fun hij => nodeS_strictMono m hd hij)
  · rw [hnodes]
    unfold trackNodes
    intro n hn
    rw [List.mem_map] at hn
    obtain ⟨i, hi, rfl⟩ := hn
    exact nodeForward_unit m hd i
  · rw [hnodes, trackNodes_length]
    rw [trackNodes_getD m _ (by omega), trackNodes_getD m _ (by omega)]
    show nodeForward m (numNodes m - 1) = nodeForward m (numNodes m - 2)
    unfold nodeForward
    rw [if_neg (by omega), if_pos h2, if_pos (by omega : numNodes m - 2 + 1 < numNodes m)]
    have heq : numNodes m - 2 + 1 = numNodes m - 1 := by omega
    rw [heq]

/-- C1 counterexample: for the `MusicMap` of a zero-length recording
(duration 0), all nodes share `s = 0`, so the node sequence is not strictly
increasing in `s` — the claim fails without a positive-duration hypothesis. -/
theorem C1_track_invariants_counterexample :
    ¬ List.Pairwise (fun a b => a.s < b.s) (generateTrack exMapZero).nodes := by
  intro hpw
  have hnodes : (generateTrack exMapZero).nodes = trackNodes exMapZero := rfl
  rw [hnodes] at hpw
  unfold trackNodes at hpw
  rw [List.pairwise_map] at hpw
  have hN : numNodes exMapZero = 100 := by
    norm_num [numNodes, exMapZero]
  have hlen : (List.range (numNodes exMapZero)).length = 100 := by
    simp [hN]
  have h01 := List.pairwise_iff_getElem.mp hpw 0 1 (by simp [hN]) (by simp [hN]) (by norm_num)
  simp only [List.getElem_range] at h01
  have hs : ∀ k : ℕ, (trackNode exMapZero k).s = 0 := by
    intro k
    show nodeS exMapZero k = 0
    unfold nodeS totalLength
    norm_num [exMapZero]
  rw [hs 0, hs 1] at h01
  exact lt_irrefl 0 h01

/-- C1 witness: a one-second silent map satisfies the hypothesis. -/
theorem C1_track_invariants_witness :
    (0 : ℝ) < exMapOne.duration ∧
      List.Pairwise (fun a b => a.s < b.s) (generateTrack exMapOne).nodes :=
  ⟨by norm_num [exMapOne], (C1_track_invariants exMapOne (by norm_num [exMapOne])).1⟩

lemma sum_map_const_mul (c : ℝ) (l : List ℝ) : (l.map (fun x => c * x)).sum = c * l.sum := by
  induction l with
  | nil => simp
  | cons a t ih =>
    simp only [List.map_cons, List.sum_cons, ih]
    ring

open Classical in
lemma smoothFold (samples : List EnergySample) (tt w : ℝ) :
    ∀ a b : ℝ,
      samples.foldl (fun acc sm =>
        if |sm.time - tt| < w
        then (acc.1 + sm.rms * triWeight tt w sm.time, acc.2 + triWeight tt w sm.time)
        else acc) (a, b)
      = (a + ((samples.filter (fun sm => decide (|sm.time - tt| < w))).map
            (fun sm => sm.rms * triWeight tt w sm.time)).sum,
         b + ((samples.filter (fun sm => decide (|sm.time - tt| < w))).map
            (fun sm => triWeight tt w sm.time)).sum) := by
  induction samples with
  | nil => intro a b; simp
  | cons sm rest ih =>
    intro a b
    simp only [List.foldl_cons, List.filter_cons]
    by_cases hc : |sm.time - tt| < w
    · rw [if_pos hc]
      simp only [decide_eq_true_eq]
      rw [if_pos hc, ih]
      simp only [List.map_cons, List.sum_cons, Prod.mk.injEq]
      constructor <;> ring
    · rw [if_neg hc]
      simp only [decide_eq_true_eq]
      rw [if_neg hc]
      exact ih a b

open Classical in
lemma filter_window_pos {samples : List EnergySample} {tt w : ℝ}
    (hf : samples.filter (fun sm => decide (|sm.time - tt| < w)) ≠ []) :
    0 < ((samples.filter (fun sm => decide (|sm.time - tt| < w))).map
      (fun sm => triWeight tt w sm.time)).sum := by
  have hw : 0 < w := by
    obtain ⟨sm, hsm⟩ := List.exists_mem_of_ne_nil _ hf
    have hcond := of_decide_eq_true (List.mem_filter.mp hsm).2
    exact lt_of_le_of_lt (abs_nonneg _) hcond
  apply List.sum_pos
  · intro x hx
    obtain ⟨sm, hsm, rfl⟩ := List.mem_map.mp hx
    have hcond := of_decide_eq_true (List.mem_filter.mp hsm).2
    unfold triWeight
    have : |sm.time - tt| / w < 1 := (div_lt_one hw).mpr hcond
    linarith
  · simpa using hf

open Classical in
lemma smoothedAt_eq_spec (samples : List EnergySample) (N i : ℕ) (hne : samples ≠ []) :
    smoothedAt samples N i = specSmoothedValue samples N i := by
  have hw : lastSampleTime samples / (samples.length : ℝ) * 2
      = 2 * (lastSampleTime samples / (samples.length : ℝ)) := by ring
  unfold smoothedAt specSmoothedValue smoothTargetTime smoothWindow
  simp only [hw]
  rw [smoothFold]
  simp only [zero_add]
  set tt := ((i : ℝ) / ((N : ℝ) - 1)) * lastSampleTime samples with htt
  set w := 2 * (lastSampleTime samples / (samples.length : ℝ)) with hwdef
  by_cases hf : samples.filter (fun sm => decide (|sm.time - tt| < w)) = []
  · rw [hf]
    simp
  · have hsum := filter_window_pos hf
    rw [if_pos hsum, if_neg hf]
    simp only [triWeight]

lemma smoothRMS_getD (samples : List EnergySample) (N i : ℕ) (hne : samples ≠ [])
    (hi : i < N) :
    (smoothRMS samples N).getD i 0 = if N = 1 then 0 else smoothedAt samples N i := by
  unfold smoothRMS
  rw [if_neg hne, List.getD_eq_getElem?_getD, List.getElem?_map, List.getElem?_range hi]
  rfl

/-- C5: for a non-empty energy series resampled to `N ≥ 2` points, the i-th
smoothed value is exactly the triangular-kernel weighted average of the claim
(window half-width `2 * (duration / numSamples)` around `(i/(N-1)) * duration`
where `duration` is the series' last sample time, weights `1 - dist/window`,
normalized by the weight sum, 0 when no sample is in the window); and node
`j` of the generated track has height `y = 6 *` the `j`-th smoothed value. -/
theorem C5_smoothing (samples : List EnergySample) (N i : ℕ) (m : MusicMap) (j : ℕ)
    (hne : samples ≠ []) (hN : 2 ≤ N) (hi : i < N) (hj : j < numNodes m) :
    (smoothRMS samples N).getD i 0 = specSmoothedValue samples N i ∧
    (nodePos m j).y = 6 * (smoothRMS m.energySamples (numNodes m)).getD j 0 := by
  constructor
  · rw [smoothRMS_getD samples N i hne hi, if_neg (by omega)]
    exact smoothedAt_eq_spec samples N i hne
  · show nodeY m j = 6 * (smoothRMS m.energySamples (numNodes m)).getD j 0
    unfold nodeY
    simp only [smoothedTrackRMS]
    rw [smoothRMS_length]
    have hfloor : Int.toNat ⌊nodeT m j * ((numNodes m : ℝ) - 1)⌋ = j := by
      unfold nodeT
      have hN1 : ((numNodes m : ℝ)) - 1 ≠ 0 := ne_of_gt (numNodes_cast_sub_pos m)
      rw [div_mul_cancel₀ _ hN1, Int.floor_natCast]
      simp
    rw [hfloor]
    ring

/-- C5 witness: two samples of rms 1 over one second, resampled to 2 points,
and node 0 of a one-second silent map. -/
theorem C5_smoothing_witness :
    (exSamplesTwo ≠ [] ∧ 2 ≤ 2 ∧ 0 < 2 ∧ 0 < numNodes exMapOne) ∧
    ((smoothRMS exSamplesTwo 2).getD 0 0 = specSmoothedValue exSamplesTwo 2 0 ∧
      (nodePos exMapOne 0).y =
        6 * (smoothRMS exMapOne.energySamples (numNodes exMapOne)).getD 0 0) :=
  ⟨⟨by simp [exSamplesTwo], by norm_num, by norm_num, by norm_num [numNodes, exMapOne]⟩,
   C5_smoothing exSamplesTwo 2 0 exMapOne 0 (by simp [exSamplesTwo]) (by norm_num)
     (by norm_num) (by norm_num [numNodes, exMapOne])⟩

open Classical in
/-- C8 (amended): for a non-empty constant-rms series, the resampled value at
a position equals the constant exactly when the target count is at least 2 and
some sample falls strictly inside that position's smoothing window; positions
with no sample in the window — and the whole series when the target count is
1 (the source's NaN path) — yield 0 instead. -/
theorem C8_constant_series (samples : List EnergySample) (c : ℝ) (N i : ℕ)
    (hne : samples ≠ []) (hc : ∀ sm ∈ samples, sm.rms = c) (hi : i < N) :
    ((2 ≤ N ∧ hasSampleInWindow samples N i) → (smoothRMS samples N).getD i 0 = c) ∧
    ((N = 1 ∨ ¬ hasSampleInWindow samples N i) → (smoothRMS samples N).getD i 0 = 0) := by
  rw [smoothRMS_getD samples N i hne hi]
  constructor
  · rintro ⟨hN, hwin⟩
    rw [if_neg (by omega)]
    simp only [smoothedAt]
    rw [smoothFold]
    simp only [zero_add]
    have hf : samples.filter
        (fun sm => decide (|sm.time - smoothTargetTime samples N i| < smoothWindow samples))
        ≠ [] := by
      obtain ⟨sm, hsm, hcond⟩ := hwin
      intro hnil
      have hmem : sm ∈ samples.filter
          (fun sm => decide (|sm.time - smoothTargetTime samples N i| < smoothWindow samples)) :=
        List.mem_filter.mpr ⟨hsm, decide_eq_true hcond⟩
      rw [hnil] at hmem
      exact absurd hmem (List.not_mem_nil sm)
    have hsum := filter_window_pos hf
    rw [if_pos hsum]
    have hcg : ∀ sm ∈ samples.filter
        (fun sm => decide (|sm.time - smoothTargetTime samples N i| < smoothWindow samples)),
        sm.rms * triWeight (smoothTargetTime samples N i) (smoothWindow samples) sm.time
          = c * triWeight (smoothTargetTime samples N i) (smoothWindow samples) sm.time := by
      intro sm hsm
      rw [hc sm (List.mem_filter.mp hsm).1]
    rw [List.map_congr_left hcg]
    rw [show (fun sm : EnergySample =>
        c * triWeight (smoothTargetTime samples N i) (smoothWindow samples) sm.time)
      = (fun x => c * x) ∘
        (fun sm : EnergySample =>
          triWeight (smoothTargetTime samples N i) (smoothWindow samples) sm.time) from rfl]
    rw [← List.map_map, sum_map_const_mul]
    exact mul_div_cancel_right₀ c (ne_of_gt hsum)
  · intro h
    by_cases hN1 : N = 1
    · rw [if_pos hN1]
    · rcases h with h1 | hwin
      · exact absurd h1 hN1
      · rw [if_neg hN1]
        simp only [smoothedAt]
        rw [smoothFold]
        simp only [zero_add]
        have hf : samples.filter
            (fun sm => decide (|sm.time - smoothTargetTime samples N i| < smoothWindow samples))
            = [] := by
          by_contra hne2
          obtain ⟨sm, hsm⟩ := List.exists_mem_of_ne_nil _ hne2
          have hm := List.mem_filter.mp hsm
          exact hwin ⟨sm, hm.1, of_decide_eq_true hm.2⟩
        rw [hf]
        simp

lemma smoothRMS_single_eval : smoothRMS exSamplesConst 2 = [0, 0] := by
  have hne : exSamplesConst ≠ [] := by simp [exSamplesConst]
  have hwin : smoothWindow exSamplesConst = 0 := by
    unfold smoothWindow lastSampleTime exSamplesConst
    norm_num
  have hsm : ∀ i : ℕ, smoothedAt exSamplesConst 2 i = 0 := by
    intro i
    simp only [smoothedAt]
    rw [smoothFold]
    simp only [zero_add]
    have hf : exSamplesConst.filter
        (fun sm => decide (|sm.time - smoothTargetTime exSamplesConst 2 i| <
          smoothWindow exSamplesConst)) = [] := by
      rw [hwin]
      unfold exSamplesConst
      simp only [List.filter_cons, List.filter_nil, decide_eq_true_eq]
      rw [if_neg (not_lt.mpr (abs_nonneg _))]
    rw [hf]
    simp
  unfold smoothRMS
  rw [if_neg hne]
  have h2 : List.range 2 = [0, 1] := rfl
  rw [h2]
  simp only [List.map_cons, List.map_nil]
  rw [if_neg (by norm_num), if_neg (by norm_num), hsm 0, hsm 1]

/-- C8 counterexample: the constant-rms series with a single sample at time 0
(rms 1), resampled to 2 points, returns [0, 0] — its smoothing window has
width 0 — so the resampled series is not constantly 1 as the claim states. -/
theorem C8_constant_series_counterexample :
    ¬ (∀ x ∈ smoothRMS exSamplesConst 2, x = 1) := by
  intro hall
  have h0 : (0 : ℝ) ∈ smoothRMS exSamplesConst 2 := by
    rw [smoothRMS_single_eval]
    simp
  have := hall 0 h0
  norm_num at this

/-- C8 witness: two evenly spaced samples of rms 1, target count 2 — every
window contains a sample, so the amended claim yields the constant 1. -/
theorem C8_constant_series_witness :
    (exSamplesTwo ≠ [] ∧ (∀ sm ∈ exSamplesTwo, sm.rms = 1) ∧ 0 < 2 ∧
      (2 ≤ 2 ∧ hasSampleInWindow exSamplesTwo 2 0)) ∧
    (smoothRMS exSamplesTwo 2).getD 0 0 = 1 := by
  have hne : exSamplesTwo ≠ [] := by simp [exSamplesTwo]
  have hc : ∀ sm ∈ exSamplesTwo, sm.rms = 1 := by
    intro sm hsm
    simp only [exSamplesTwo, List.mem_cons, List.mem_singleton] at hsm
    rcases hsm with rfl | rfl | h
    · rfl
    · rfl
    · exact absurd h (List.not_mem_nil sm)
  have hwin : hasSampleInWindow exSamplesTwo 2 0 := by
    refine ⟨⟨0, 1⟩, by simp [exSamplesTwo], ?_⟩
    unfold smoothTargetTime smoothWindow lastSampleTime exSamplesTwo
    norm_num
  exact ⟨⟨hne, hc, by norm_num, by norm_num, hwin⟩,
    (C8_constant_series exSamplesTwo 1 2 0 hne hc (by norm_num)).1 ⟨by norm_num, hwin⟩⟩

lemma le_foldl_max (l : List ℝ) : ∀ a : ℝ, a ≤ l.foldl max a := by
  induction l with
  | nil => intro a; exact le_refl a
  | cons x t ih => intro a; exact le_trans (le_max_left a x) (ih (max a x))

open Classical in
/-- C9: degenerate inputs (no treble peaks, no nodes, or non-positive
duration) yield an empty hazard list; otherwise one hazard per peak whose
intensity is the peak's strength divided by the maximum peak strength (0 when
that maximum is 0), so a peak of maximal positive strength gets intensity
exactly 1.  (Strengths are non-negative magnitudes per the data model.) -/
theorem C9_treble_pulses (peaks : List BeatMarker) (nodes : List TrackNode) (d : ℝ)
    (hstr : ∀ p ∈ peaks, 0 ≤ p.strength) :
    ((peaks = [] ∨ nodes = [] ∨ d ≤ 0) → createTreblePulses peaks nodes d = []) ∧
    (peaks ≠ [] → nodes ≠ [] → 0 < d →
      (createTreblePulses peaks nodes d).length = peaks.length ∧
      (∀ k, k < peaks.length →
        ((createTreblePulses peaks nodes d).getD k defaultPulse).intensity =
          if maxPeakStrength peaks = 0 then 0
          else (peaks.getD k ⟨0, 0⟩).strength / maxPeakStrength peaks) ∧
      (∀ k, k < peaks.length → (peaks.getD k ⟨0, 0⟩).strength = maxPeakStrength peaks →
        0 < maxPeakStrength peaks →
        ((createTreblePulses peaks nodes d).getD k defaultPulse).intensity = 1)) := by
  constructor
  · intro h
    unfold createTreblePulses
    rw [if_pos h]
  · intro hp hn hd
    have hcond : ¬ (peaks = [] ∨ nodes = [] ∨ d ≤ 0) := by
      push_neg
      exact ⟨hp, hn, hd⟩
    have hmax0 : 0 ≤ maxPeakStrength peaks := by
      unfold maxPeakStrength
      cases hpk : peaks.map (fun p => p.strength) with
      | nil => exact le_refl 0
      | cons v vs =>
        have hv : v ∈ peaks.map (fun p => p.strength) := by
          rw [hpk]
          exact List.mem_cons_self v vs
        obtain ⟨p, hp2, hps⟩ := List.mem_map.mp hv
        have h0v : 0 ≤ v := hps ▸ hstr p hp2
        exact le_trans h0v (le_foldl_max vs v)
    have hint : ∀ k, k < peaks.length →
        ((createTreblePulses peaks nodes d).getD k defaultPulse).intensity =
          if 0 < maxPeakStrength peaks
          then (peaks.getD k ⟨0, 0⟩).strength / maxPeakStrength peaks else 0 := by
      intro k hk
      unfold createTreblePulses
      rw [if_neg hcond]
      rw [List.getD_eq_getElem?_getD, List.getElem?_map, List.getElem?_range hk]
      rfl
    have hlen : (createTreblePulses peaks nodes d).length = peaks.length := by
      unfold createTreblePulses
      rw [if_neg hcond]
      simp
    refine ⟨hlen, ?_, ?_⟩
    · intro k hk
      rw [hint k hk]
      rcases lt_or_eq_of_le hmax0 with hpos | heq0
      · rw [if_pos hpos, if_neg (Ne.symm (ne_of_lt hpos))]
      · rw [if_neg (heq0 ▸ lt_irrefl 0), if_pos heq0.symm]
    · intro k hk hks hpos
      rw [hint k hk, if_pos hpos, hks]
      exact div_self (ne_of_gt hpos)

/-- C9 witness: a single peak of strength 2, one node, duration 1 — the
strongest peak's hazard has intensity exactly 1. -/
theorem C9_treble_pulses_witness :
    ((∀ p ∈ exPeaks, 0 ≤ p.strength) ∧ exPeaks ≠ [] ∧
      ([defaultTrackNode] : List TrackNode) ≠ [] ∧ (0 : ℝ) < 1 ∧ 0 < exPeaks.length ∧
      (exPeaks.getD 0 ⟨0, 0⟩).strength = maxPeakStrength exPeaks ∧
      0 < maxPeakStrength exPeaks) ∧
    ((createTreblePulses exPeaks [defaultTrackNode] 1).getD 0 defaultPulse).intensity = 1 := by
  have hstr : ∀ p ∈ exPeaks, 0 ≤ p.strength := by
    intro p hp
    simp only [exPeaks, List.mem_singleton] at hp
    subst hp
    norm_num
  have hmax : maxPeakStrength exPeaks = 2 := rfl
  refine ⟨⟨hstr, by simp [exPeaks], by simp, by norm_num, by simp [exPeaks], ?_, ?_⟩, ?_⟩
  · rw [hmax]
    rfl
  · rw [hmax]
    norm_num
  · exact ((C9_treble_pulses exPeaks [defaultTrackNode] 1 hstr).2 (by simp [exPeaks])
      (by simp) (by norm_num)).2.2 0 (by simp [exPeaks]) (by rw [hmax]; rfl)
      (by rw [hmax]; norm_num)

lemma threshold_eq (vals : List ℝ) : calculateRMSThreshold vals = rmsThresholdFromSpec vals := by
  unfold calculateRMSThreshold rmsThresholdFromSpec
  split_ifs with h
  · rfl
  · rfl

lemma filterMap_range_window {β : Type} (L : ℕ) (g : ℕ → Option β) :
    (List.range L).filterMap (fun i => if 0 < i ∧ i + 1 < L then g i else none) =
    (List.range' 1 (L - 2)).filterMap g := by
  cases L with
  | zero => simp
  | succ L1 =>
    cases L1 with
    | zero => simp
    | succ n =>
      have h1 : List.range (n + 2) = 0 :: List.range' 1 (n + 1) := by
        rw [List.range_eq_range']
        rfl
      have h2 : List.range' 1 (n + 1) = List.range' 1 n ++ [1 + 1 * n] :=
        List.range'_concat 1 n
      have h3 : (n + 2) - 2 = n := by omega
      rw [h1, h3, List.filterMap_cons, h2, List.filterMap_append]
      rw [if_neg (by omega)]
      have h4 : ([1 + 1 * n].filterMap fun i => if 0 < i ∧ i + 1 < n + 2 then g i else none) = [] := by
        simp only [List.filterMap_cons, List.filterMap_nil]
        rw [if_neg (by omega)]
      rw [h4, List.append_nil]
      apply List.filterMap_congr
      intro i hi
      rw [List.mem_range'_1] at hi
      rw [if_pos (by omega)]

open Classical in
lemma detectEvents_eq_spec (vals times : List ℝ) :
    detectEvents vals times = eventsSpec vals times := by
  have hthr := threshold_eq vals
  unfold detectEvents eventsSpec
  simp only [hthr]
  have hw := filterMap_range_window (β := BeatMarker) vals.length
    (fun i => if vals.getD (i - 1) 0 < vals.getD i 0 ∧ vals.getD (i + 1) 0 < vals.getD i 0 ∧
        rmsThresholdFromSpec vals < vals.getD i 0
      then some ⟨times.getD i 0, vals.getD i 0⟩ else none)
  rw [← hw]
  apply List.filterMap_congr
  intro i hi
  by_cases h1 : 0 < i ∧ i + 1 < vals.length
  · rw [if_pos h1]
    by_cases h2 : vals.getD (i - 1) 0 < vals.getD i 0 ∧ vals.getD (i + 1) 0 < vals.getD i 0 ∧
        rmsThresholdFromSpec vals < vals.getD i 0
    · rw [if_pos h2, if_pos ⟨h1.1, h1.2, h2.1, h2.2.1, h2.2.2⟩]
    · rw [if_neg h2, if_neg (fun hh => h2 ⟨hh.2.2.1, hh.2.2.2.1, hh.2.2.2.2⟩)]
  · rw [if_neg h1, if_neg (fun hh => h1 ⟨hh.1, hh.2.1⟩)]

/-- C4: for every analyzed buffer (with a positive hop size, as every real
sample rate gives), the emitted beats are exactly the indices of the
broadband RMS series — first and last windows excluded — that are strict
local maxima strictly above the series' threshold `mean + 0.5 * stddev`
(0 for an empty series), in index order; likewise the treble peaks for the
treble RMS series. -/
theorem C4_event_detection (b : AudioDataBuffer) (hhop : 0 < hopSize b) :
    (analyzeBuffer b).beats = eventsSpec (rmsValues b) (windowTimes b) ∧
    (analyzeBuffer b).treblePeaks = eventsSpec (trebleRmsValues b) (windowTimes b) :=
  ⟨detectEvents_eq_spec (rmsValues b) (windowTimes b),
   detectEvents_eq_spec (trebleRmsValues b) (windowTimes b)⟩

/-- C4 witness: the nine-sample buffer at sample rate 40 has hop size 3. -/
theorem C4_event_detection_witness :
    0 < hopSize exBuf ∧ (analyzeBuffer exBuf).beats = eventsSpec (rmsValues exBuf) (windowTimes exBuf) :=
  ⟨by norm_num [hopSize, exBuf], (C4_event_detection exBuf (by norm_num [hopSize, exBuf])).1⟩

open Classical in
/-- C3 (amended: exact-offset matching): the jump timestamps are the times of
every 4th strong beat starting at 0-based index 3 (strong: strength strictly
above `calculateBeatThreshold`, i.e. 1.2 times the median strength; sorted by
time), and a node is flagged `isJump` iff its exact sample time, its time
minus 0.1, or its time plus 0.1 equals a jump timestamp — the source performs
three exact set-membership tests, not an interval test. -/
theorem C3_jump_rule (m : MusicMap) (i : ℕ) (hi : i < numNodes m) :
    ((trackNode m i).isJump ↔
      ∃ x, (∃ k, 4 * k + 3 < (strongBeats m).length ∧
          ((strongBeats m).getD (4 * k + 3) ⟨0, 0⟩).time = x) ∧
        (nodeTime m i = x ∨ nodeTime m i - 0.1 = x ∨ nodeTime m i + 0.1 = x)) ∧
    List.Pairwise (fun a b => a.time ≤ b.time) (strongBeats m) ∧
    (∀ bm : BeatMarker, bm ∈ strongBeats m ↔
      bm ∈ m.beats ∧ calculateBeatThreshold m.beats < bm.strength) := by
  refine ⟨?_, ?_, ?_⟩
  · show isJumpNode m i ↔ _
    unfold isJumpNode jumpTimesList
    constructor
    · rintro (h | h | h) <;>
        · rw [List.mem_map] at h
          obtain ⟨k, hk, hfk⟩ := h
          rw [List.mem_range] at hk
          exact ⟨_, ⟨k, by omega, hfk⟩, by tauto⟩
    · rintro ⟨x, ⟨k, hk, hfk⟩, hcase⟩
      have hxJ : x ∈ (List.range ((strongBeats m).length / 4)).map
          (fun k => ((strongBeats m).getD (4 * k + 3) ⟨0, 0⟩).time) :=
        List.mem_map.mpr ⟨k, List.mem_range.mpr (by omega), hfk⟩
      rcases hcase with h | h | h
      · left; rw [h]; exact hxJ
      · right; left; rw [h]; exact hxJ
      · right; right; rw [h]; exact hxJ
  · exact List.sorted_insertionSort _ _
  · intro bm
    unfold strongBeats
    rw [List.Perm.mem_iff (List.perm_insertionSort _ _), List.mem_filter]
    simp only [decide_eq_true_eq]

lemma exMapJump_threshold : calculateBeatThreshold exMapJump.beats = 0 := by
  unfold calculateBeatThreshold exMapJump
  norm_num [List.insertionSort, List.orderedInsert]

lemma exMapJump_strong : strongBeats exMapJump = [⟨1, 1⟩, ⟨2, 1⟩, ⟨3, 1⟩, ⟨5, 1⟩] := by
  unfold strongBeats
  simp only [exMapJump_threshold]
  show List.insertionSort (fun a b => a.time ≤ b.time)
      (exMapJump.beats.filter (fun bm => decide ((0 : ℝ) < bm.strength))) = _
  have hfil : exMapJump.beats.filter (fun bm => decide ((0 : ℝ) < bm.strength)) =
      [⟨1, 1⟩, ⟨2, 1⟩, ⟨3, 1⟩, ⟨5, 1⟩] := by
    unfold exMapJump
    norm_num [List.filter]
  rw [hfil]
  norm_num [List.insertionSort, List.orderedInsert]

lemma exMapJump_jumps : jumpTimesList exMapJump = [5] := by
  unfold jumpTimesList
  rw [exMapJump_strong]
  norm_num [List.range_succ]

lemma exMapJump_numNodes : numNodes exMapJump = 100 := by
  norm_num [numNodes, exMapJump]

lemma exMapJump_node49 : nodeTime exMapJump 49 = 490 / 99 := by
  unfold nodeTime nodeT
  rw [exMapJump_numNodes]
  show ((49 : ℝ) / ((100 : ℕ) - 1 : ℝ)) * exMapJump.duration = 490 / 99
  norm_num [exMapJump]

/-- C3 counterexample: in `exMapJump` the only jump timestamp is 5; node 49
has time 490/99, which lies within 0.1 s of 5, yet its `isJump` flag is
false — the source checks exact membership of `time`, `time - 0.1` and
`time + 0.1` only, so "within 0.1 s" as the claim states does not hold. -/
theorem C3_jump_rule_counterexample :
    (∃ jt ∈ jumpTimesList exMapJump, |nodeTime exMapJump 49 - jt| ≤ 0.1) ∧
    ¬ (trackNode exMapJump 49).isJump := by
  constructor
  · refine ⟨5, by rw [exMapJump_jumps]; simp, ?_⟩
    rw [exMapJump_node49, abs_le]
    constructor <;> norm_num
  · show ¬ isJumpNode exMapJump 49
    unfold isJumpNode
    rw [exMapJump_jumps, exMapJump_node49]
    simp only [List.mem_singleton]
    push_neg
    refine ⟨by norm_num, by norm_num, by norm_num⟩

/-- C3 witness: node 49 of the concrete map instantiates the amended rule. -/
theorem C3_jump_rule_witness :
    49 < numNodes exMapJump ∧
      ((trackNode exMapJump 49).isJump ↔
        ∃ x, (∃ k, 4 * k + 3 < (strongBeats exMapJump).length ∧
            ((strongBeats exMapJump).getD (4 * k + 3) ⟨0, 0⟩).time = x) ∧
          (nodeTime exMapJump 49 = x ∨ nodeTime exMapJump 49 - 0.1 = x ∨
            nodeTime exMapJump 49 + 0.1 = x)) :=
  ⟨by rw [exMapJump_numNodes]; norm_num,
   (C3_jump_rule exMapJump 49 (by rw [exMapJump_numNodes]; norm_num)).1⟩
